import Mathlib

/-!
Verification of the batched autoregressive decoding core of the
TensorRT-LLM runtime: the synchronous and asynchronous `GptDecoder`
forward paths, the speculative-decoding acceptance operations, the
penalty layer, the beam-search `gatherTree` finalization and the paged
KV-cache `BlockManager`.  Host-side control flow is embedded from the
C++ sources; device kernels whose implementation is outside the
sources are modelled from the specification and marked as such.
-/

namespace TRTLLM

/-! ## GptDecoder forward (synchronous and asynchronous variants)

Embedding of `GptDecoder<T>::forward` and `GptDecoder<T>::forwardAsync`.
The synchronous variant allocates a pinned `finishedSum` mirror only
when both `input.sequenceLimitLength` and `output.finished` are
provided; in that case it synchronizes the stream after the dynamic
decode layer ran, sums the per-slot finished counts and compares the
sum with the total size of the finished mask.  Otherwise it returns
`false` without touching the finished state. -/

/-- Host-side actions issued by the decoder forward paths, in program order. -/
inductive HostAction
  | layerForward
  | streamSynchronize
  deriving DecidableEq

/-- Modelled from the spec: contract of the dynamic decode kernels for the
`finishedSum` output buffer.  The kernels are not part of the sources; the
spec states that `finishedSum[slot]` equals the count of beams of that slot
whose finished state is terminal. -/
def finishedSumHost (finishedRows : List (List Bool)) : List Nat :=
  finishedRows.map (fun row => row.countP (fun b => b))

/-- Result of the synchronous forward: the returned boolean and the trace of
host actions issued. -/
structure GptForwardResult where
  allDone : Bool
  actions : List HostAction
  deriving DecidableEq

/-- Embedding of `GptDecoder<T>::forward`.  `seqLimitProvided` is whether
`input.sequenceLimitLength` is set; `finishedOut` is the contents of the
`output.finished` mask (one row per batch slot) after the decode step when
that tensor is provided, `none` when it is absent. -/
def gptDecoderForward (seqLimitProvided : Bool)
    (finishedOut : Option (List (List Bool))) : GptForwardResult :=
  match seqLimitProvided, finishedOut with
  | true, some rows =>
      let sums := finishedSumHost rows
      let numToFinish := (rows.map List.length).sum
      { allDone := numToFinish == sums.sum
        actions := [HostAction.layerForward, HostAction.streamSynchronize] }
  | _, _ => { allDone := false, actions := [HostAction.layerForward] }

/-- Embedding of `GptDecoder<T>::forwardAsync`: it prepares inputs and
outputs, runs the dynamic decode layer and returns, with no synchronization
and no return value. -/
def gptDecoderForwardAsync : List HostAction :=
  [HostAction.layerForward]

/-! ## Speculative-decoding acceptance: validation prefixes

Embedding of the shape checks at the head of
`IGptDecoder::acceptDraftTokensByIds` and
`IGptDecoder::acceptDraftTokensByLogits`.  In the by-ids variant the beam
width is read from dimension 1 of `targetTokenIds`; in the by-logits
variant it is a `constexpr` local fixed to 1 and no beam dimension is read
from any input. -/

/-- Shape information read by `acceptDraftTokensByIds` before validation. -/
structure AcceptByIdsShapes where
  finishedVecDim1 : Nat
  batchSlotsDim0 : Nat
  targetDim1 : Nat
  targetDim2 : Nat
  draftDim0 : Nat
  draftDim1 : Nat
  contextLengthsDim0 : Nat
  numDraftTokensDim0 : Nat
  sequenceLengthsDim0 : Nat
  deriving DecidableEq

/-- The invalid-argument failures the acceptance operations can raise before
launching any device work, in source order. -/
inductive AcceptCheckFailure
  | beamWidthCheck
  | batchSizeCheck
  | draftBatchCheck
  | contextBatchCheck
  | numDraftBatchCheck
  | seqLenBatchCheck
  | vocabCheck
  | dtypeCheck
  deriving DecidableEq

/-- Embedding of the validation prefix of `acceptDraftTokensByIds`: each
`TLLM_CHECK_WITH_INFO` in source order; `ok` means the kernel
`invokeAcceptDraftTokensByIds` is reached. -/
def acceptDraftTokensByIdsValidate (s : AcceptByIdsShapes) :
    Except AcceptCheckFailure Unit :=
  if s.targetDim1 ≠ 1 then .error .beamWidthCheck
  else if ¬ s.batchSlotsDim0 ≤ s.finishedVecDim1 then .error .batchSizeCheck
  else if s.draftDim0 ≠ s.finishedVecDim1 then .error .draftBatchCheck
  else if s.contextLengthsDim0 ≠ s.finishedVecDim1 then .error .contextBatchCheck
  else if s.numDraftTokensDim0 ≠ s.finishedVecDim1 then .error .numDraftBatchCheck
  else if s.sequenceLengthsDim0 ≠ s.finishedVecDim1 then .error .seqLenBatchCheck
  else .ok ()

/-- Logits element types dispatched on by `acceptDraftTokensByLogits`. -/
inductive LogitsDtype
  | float32
  | float16
  | otherDtype
  deriving DecidableEq

/-- In `acceptDraftTokensByLogits` the beam width is a `constexpr` local set
to 1; it is not read from any input shape. -/
def acceptByLogitsBeamWidth : Nat := 1

/-- Embedding of the validation prefix of `acceptDraftTokensByLogits`: the
beam-width check tests the constexpr value, then draft logits dimension 2
must equal `vocabSize`, then the dtype dispatch throws on anything but
float32 and float16. -/
def acceptDraftTokensByLogitsValidate (vocabSize draftDim2 : Nat)
    (dtype : LogitsDtype) : Except AcceptCheckFailure Unit :=
  if acceptByLogitsBeamWidth ≠ 1 then .error .beamWidthCheck
  else if draftDim2 ≠ vocabSize then .error .vocabCheck
  else match dtype with
    | .float32 => .ok ()
    | .float16 => .ok ()
    | .otherDtype => .error .dtypeCheck

/-! ## Speculative decoding by draft ids: acceptance semantics -/

/-- Modelled from the spec: the acceptance kernel invoked by
`acceptDraftTokensByIds` (not part of the sources) compares the drafted
tokens against the target-model tokens position by position and stops at
the first mismatch; the result is the number of accepted draft tokens. -/
def acceptScan : List Int → List Int → Nat
  | d :: ds, t :: ts => if d = t then acceptScan ds ts + 1 else 0
  | _, _ => 0

/-- Modelled from the spec: per-slot effect of `acceptDraftTokensByIds` with
beam width 1: the accepted count, the extra token emitted from the first
mismatch position of the target tokens, and the updated entry of
`sequenceLengths` (incremented by accepted + 1). -/
def acceptDraftTokensByIdsSlot (draft target : List Int) (seqLen : Nat) :
    Nat × Option Int × Nat :=
  let accepted := acceptScan draft target
  (accepted, target.get? accepted, seqLen + accepted + 1)

/-! ## gatherTree validation prefix -/

/-- Shapes read by `GptDecoder::gatherTree`: the `finalOutputIds` dimensions
(batch, beam, maxSeqLen) and the `decodingOutput.ids` dimensions. -/
structure GatherTreeShapes where
  finalBatch : Nat
  finalBeam : Nat
  finalMaxSeqLen : Nat
  decBatch : Nat
  decBeam : Nat
  decSeqLen : Nat
  deriving DecidableEq

/-- The failures the `gatherTree` validation prefix can raise. -/
inductive GatherTreeFailure
  | beamWidthCheck
  | batchSizeCheck
  | beamMatchCheck
  | seqLenCheck
  deriving DecidableEq

/-- Embedding of the `TLLM_CHECK_WITH_INFO` validation prefix of
`GptDecoder::gatherTree`, in source order; `ok` means the first kernel
(`invokeInitializeOutput`) is reached. -/
def gatherTreeValidate (s : GatherTreeShapes) : Except GatherTreeFailure Unit :=
  if ¬ 1 < s.finalBeam then .error .beamWidthCheck
  else if s.decBatch ≠ s.finalBatch then .error .batchSizeCheck
  else if s.decBeam ≠ s.finalBeam then .error .beamMatchCheck
  else if ¬ s.decSeqLen ≤ s.finalMaxSeqLen then .error .seqLenCheck
  else .ok ()

/-! ## Penalty layer: lazy per-class use flags (`PenaltyLayer<T>::setup`,
`PenaltyLayer<T>::forwardAsync`) -/

/-- The five per-class use flags of the penalty layer (mUseTemperature,
mUseRepetitionPenalty, mUsePresencePenalty, mUseFrequencyPenalty,
mUseMinLength). -/
structure PenaltyUseFlags where
  useTemperature : Bool
  useRepetitionPenalty : Bool
  usePresencePenalty : Bool
  useFrequencyPenalty : Bool
  useMinLength : Bool
  deriving DecidableEq

/-- Which penalty classes the configured decoding mode uses
(mDecodingMode.isUseTemperature() and friends). -/
structure DecodingModeUses where
  temperature : Bool
  repetition : Bool
  presence : Bool
  frequency : Bool
  minLength : Bool
  deriving DecidableEq

/-- Per-class setup parameters: `some` when the setup call provides values
for the class (penaltyParams member has_value()), carrying per-slot values. -/
structure PenaltySetupParams where
  temperature : Option (List ℚ)
  repetitionPenalty : Option (List ℚ)
  presencePenalty : Option (List ℚ)
  frequencyPenalty : Option (List ℚ)
  minLength : Option (List Int)
  deriving DecidableEq

/-- Default temperature sentinel of DefaultDecodingParams (the header is not
under the sources; the documented default is 1). -/
def defaultTemperature : ℚ := 1

/-- Flag update of `PenaltyLayer<T>::setup`: each use flag is OR-ed with
whether the decoding mode uses the class and the setup call provides a value
for it, exactly the statements mUseX |= useX of the source. -/
def penaltySetupFlags (mode : DecodingModeUses) (p : PenaltySetupParams)
    (f : PenaltyUseFlags) : PenaltyUseFlags where
  useTemperature := f.useTemperature || (mode.temperature && p.temperature.isSome)
  useRepetitionPenalty :=
    f.useRepetitionPenalty || (mode.repetition && p.repetitionPenalty.isSome)
  usePresencePenalty :=
    f.usePresencePenalty || (mode.presence && p.presencePenalty.isSome)
  useFrequencyPenalty :=
    f.useFrequencyPenalty || (mode.frequency && p.frequencyPenalty.isSome)
  useMinLength := f.useMinLength || (mode.minLength && p.minLength.isSome)

/-- The flag-relevant state of the layer: the use flags and the cyclic step
counter into the rolling logits-pointer buffer. -/
structure PenaltyLayerState where
  flags : PenaltyUseFlags
  cyclicStep : Nat
  runtimeMaxSeqLen : Nat
  deriving DecidableEq

/-- State effect of `PenaltyLayer<T>::forwardAsync` on this state: the cyclic
step is reduced modulo the runtime max sequence length and incremented; no
use flag is touched. -/
def penaltyForwardStep (s : PenaltyLayerState) : PenaltyLayerState :=
  { s with cyclicStep := s.cyclicStep % s.runtimeMaxSeqLen + 1 }

/-- The operations applied to the layer over its lifetime. -/
inductive PenaltyOp
  | setupOp (mode : DecodingModeUses) (p : PenaltySetupParams)
  | forwardOp
  deriving DecidableEq

def applyPenaltyOp (s : PenaltyLayerState) : PenaltyOp → PenaltyLayerState
  | .setupOp mode p => { s with flags := penaltySetupFlags mode p s.flags }
  | .forwardOp => penaltyForwardStep s

def runPenaltyOps (ops : List PenaltyOp) (s : PenaltyLayerState) :
    PenaltyLayerState :=
  ops.foldl applyPenaltyOp s

/-- Fresh layer state right after construction: all use flags false and the
cyclic step at 0. -/
def penaltyLayerInit (maxSeqLen : Nat) : PenaltyLayerState where
  flags := ⟨false, false, false, false, false⟩
  cyclicStep := 0
  runtimeMaxSeqLen := maxSeqLen

/-- Whether an operation installs a non-default temperature value for some
slot: the enabling trigger asserted by the claim. -/
def installsNonDefaultTemperature : PenaltyOp → Bool
  | .setupOp _ p =>
      match p.temperature with
      | some vs => vs.any (fun v => v != defaultTemperature)
      | none => false
  | .forwardOp => false

/-- Whether an operation provides a temperature vector at all, under a mode
that uses temperature: the condition the source actually tests. -/
def providesTemperature : PenaltyOp → Bool
  | .setupOp mode p => mode.temperature && p.temperature.isSome
  | .forwardOp => false

def providesRepetitionPenalty : PenaltyOp → Bool
  | .setupOp mode p => mode.repetition && p.repetitionPenalty.isSome
  | .forwardOp => false

def providesPresencePenalty : PenaltyOp → Bool
  | .setupOp mode p => mode.presence && p.presencePenalty.isSome
  | .forwardOp => false

def providesFrequencyPenalty : PenaltyOp → Bool
  | .setupOp mode p => mode.frequency && p.frequencyPenalty.isSome
  | .forwardOp => false

def providesMinLength : PenaltyOp → Bool
  | .setupOp mode p => mode.minLength && p.minLength.isSome
  | .forwardOp => false

/-- The C5 claim as stated, instantiated to the temperature class: starting
from a fresh layer, the temperature use flag is set after an operation
sequence iff some setup call in it installed a non-default temperature value
for some slot. -/
def penaltyLazyEnableClaim : Prop :=
  ∀ (maxSeqLen : Nat) (ops : List PenaltyOp),
    (runPenaltyOps ops (penaltyLayerInit maxSeqLen)).flags.useTemperature = true ↔
      ∃ op ∈ ops, installsNonDefaultTemperature op = true

/-! ## Penalty layer forward: logits frame property -/

/-- Modelled from the spec: the arithmetic of the batch-apply-penalty kernel
(the kernel itself is not part of the sources); the penalized logits are a
function of the gathered input logits and per-slot parameters, of which
temperature scaling is shown.  The frame claim depends only on the write
target, not on this arithmetic. -/
def applyPenaltyMath (temperature : ℚ) (logits : List ℚ) : List ℚ :=
  logits.map (fun x => x / temperature)

/-- Device memory as a heap of buffers indexed by buffer id. -/
def DeviceMem : Type := List (List ℚ)

def readBuf (mem : DeviceMem) (b : Nat) : List ℚ :=
  mem.getD b []

/-- Buffer dataflow of `PenaltyLayer<T>::forwardAsync`: the host gathers one
input-logits pointer per slot (from params logitsVec or slices of params
logits), the penalty kernel reads through those pointers and writes only
through its outputLogits pointer, which the layer points at its dedicated
mRuntimeLogitsDevice buffer; finally the inputs logits pointer is redirected
to that buffer.  Returns the redirected pointer and the new memory. -/
def penaltyForwardAsyncMem (runtimeLogitsBuf : Nat) (inputLogitsBufs : List Nat)
    (temperature : ℚ) (mem : DeviceMem) : Nat × DeviceMem :=
  let penalized :=
    (inputLogitsBufs.map (fun b => applyPenaltyMath temperature (readBuf mem b))).flatten
  (runtimeLogitsBuf, mem.set runtimeLogitsBuf penalized)

/-! ## Decode-step determinism

Modelled from the spec: the sampling layers draw via device-side categorical
sampling with a per-slot curand state seeded from `randomSeed` at `setup`;
all randomness of a decode step is a pure function of the installed seeds,
so two runs with identical seed, logits, batch slots and sampling
configuration coincide.  The device workspace appears explicitly in the
state so that its irrelevance to the outputs is a theorem rather than an
assumption. -/

/-- Modelled from the spec: a per-slot curand state advanced by a pure
linear congruential step. -/
def rngNext (s : Nat) : Nat := (s * 1103515245 + 12345) % 2147483648

/-- Modelled from the spec: curand seeding folds the installed random seed
into the initial per-slot state. -/
def rngInit (seed : Nat) : Nat := rngNext seed

/-- Sampling configuration relevant to the modelled sampling kernel. -/
structure SamplingCfg where
  topK : Nat
  deriving DecidableEq

/-- Decoder run state: per-slot curand states and cumulative log
probabilities, plus the device scratch workspace whose initial contents are
not part of the decode inputs. -/
structure DecoderRunState where
  rngStates : List Nat
  cumLogProbs : List Int
  scratch : List Int
  deriving DecidableEq

/-- Insert an (index, logit) pair into a list ranked by logit descending,
ties broken by lower index. -/
def insertRankedTok (e : Nat × Int) : List (Nat × Int) → List (Nat × Int)
  | [] => [e]
  | x :: xs =>
      if x.2 < e.2 ∨ (e.2 = x.2 ∧ e.1 < x.1) then e :: x :: xs
      else x :: insertRankedTok e xs

/-- All vocabulary indices ranked by logit descending (ties by index). -/
def rankTokens (logits : List Int) : List (Nat × Int) :=
  logits.enum.foldr insertRankedTok []

/-- The top-k token indices of a logits row. -/
def topKIndices (k : Nat) (logits : List Int) : List Nat :=
  ((rankTokens logits).take k).map Prod.fst

/-- Modelled from the spec: one categorical draw of the sampling kernel,
picking among the top-k candidates using the slot curand state. -/
def sampleToken (cfg : SamplingCfg) (rng : Nat) (logits : List Int) : Nat :=
  let cands := topKIndices (max cfg.topK 1) logits
  cands.getD (rng % max cands.length 1) 0

/-- One decode step for one slot: sample a token, advance the slot rng,
accumulate the cumulative log probability and overwrite the scratch
workspace. -/
def decodeStepSlot (cfg : SamplingCfg) (slot : Nat) (logits : List Int)
    (st : DecoderRunState) : DecoderRunState × Nat :=
  let rng := st.rngStates.getD slot 0
  let tok := sampleToken cfg rng logits
  (⟨st.rngStates.set slot (rngNext rng),
    st.cumLogProbs.set slot (st.cumLogProbs.getD slot 0 + logits.getD tok 0),
    logits⟩, tok)

/-- One decode step over the dense batch: each dense index is remapped
through `batchSlots` to its slot and consumes its own logits row. -/
def decodeStepBatch (cfg : SamplingCfg) :
    List Nat → List (List Int) → DecoderRunState → DecoderRunState × List Nat
  | slot :: bs, row :: rs, st =>
      let r1 := decodeStepSlot cfg slot row st
      let r2 := decodeStepBatch cfg bs rs r1.1
      (r2.1, r1.2 :: r2.2)
  | _, _, st => (st, [])

/-- A run of decode steps, one logits matrix per step; returns the final
state and the per-step output ids. -/
def runDecode (cfg : SamplingCfg) (batchSlots : List Nat) :
    List (List (List Int)) → DecoderRunState → DecoderRunState × List (List Nat)
  | [], st => (st, [])
  | rows :: rest, st =>
      let r1 := decodeStepBatch cfg batchSlots rows st
      let r2 := runDecode cfg batchSlots rest r1.1
      (r2.1, r1.2 :: r2.2)

/-- Decoder state after `setup` installed the per-slot random seeds; the
scratch workspace holds whatever was in device memory. -/
def initDecoderState (seeds : List Nat) (maxBatch : Nat)
    (scratch : List Int) : DecoderRunState where
  rngStates := seeds.map rngInit
  cumLogProbs := List.replicate maxBatch 0
  scratch := scratch

/-! ## gatherTree: beam-path reconstruction and idempotence

`GptDecoder::gatherTree` runs three kernels: `invokeInitializeOutput`
(prefill final ids with end ids), `invokeInsertUnfinishedPath` (reconstruct
the still-live beams by walking parent pointers and write them into the
candidate-beam-array buffers of the decoding output) and `invokeFinalize`
(emit the top beamWidth candidates into `finalOutputIds`).  The kernels are
not part of the sources and are modelled from the spec; the wrapper passes a
null length-penalties tensor, so the default length penalty 1.0 applies. -/

/-- A candidate hypothesis of the candidate-beam-array: token sequence and
length-normalized score. -/
structure BeamEntry where
  tokens : List Int
  score : ℚ
  deriving DecidableEq

/-- The per-slot decoding state gatherTree reads and writes: the decoder
outputs (tokens and parent beam indices per step and beam, the sequence
length, per-beam cumulative log probabilities) and the candidate-beam-array
buffers. -/
structure SlotDecodeState where
  outputIdsSrc : List (List Int)
  parentIdsSrc : List (List Nat)
  seqLen : Nat
  cumLogProbs : List ℚ
  cba : List BeamEntry
  numBeamsCba : Nat
  deriving DecidableEq

/-- Modelled from the spec: reconstruct the hypothesis of length t ending in
beam b by walking parent pointers backwards; token at step u comes from the
beam reached at step u, and the parent index at step u points to the beam
valid at step u-1. -/
def backtrackPath (outputIds : List (List Int)) (parentIds : List (List Nat)) :
    Nat → Nat → List Int
  | 0, _ => []
  | t + 1, b =>
      backtrackPath outputIds parentIds t ((parentIds.getD t []).getD b 0)
        ++ [(outputIds.getD t []).getD b 0]

/-- Write a run of entries into consecutive candidate-beam-array slots
starting at a given index (writes beyond the array are dropped). -/
def writeEntriesAt : Nat → List BeamEntry → List BeamEntry → List BeamEntry
  | _, [], cba => cba
  | n, e :: es, cba => writeEntriesAt (n + 1) es (cba.set n e)

/-- Modelled from the spec: `invokeInsertUnfinishedPath` reconstructs each
still-live beam by walking parent pointers back from its end, scores it with
the default length penalty 1.0 (score = cumLogProb / length) and writes the
hypotheses into the candidate-beam-array slots following the numBeamsCba
finished entries; the numBeams counter and the decoder outputs are not
modified. -/
def insertUnfinishedPath (beamWidth : Nat) (s : SlotDecodeState) :
    SlotDecodeState :=
  let live := (List.range beamWidth).map (fun i =>
    BeamEntry.mk (backtrackPath s.outputIdsSrc s.parentIdsSrc s.seqLen i)
      (s.cumLogProbs.getD i 0 / (s.seqLen : ℚ)))
  { s with cba := writeEntriesAt s.numBeamsCba live s.cba }

/-- Insert an (index, entry) pair into a list ranked by score descending,
ties broken by lower index. -/
def insertRankedEntry (e : Nat × BeamEntry) :
    List (Nat × BeamEntry) → List (Nat × BeamEntry)
  | [] => [e]
  | x :: xs =>
      if x.2.score < e.2.score ∨ (e.2.score = x.2.score ∧ e.1 < x.1) then
        e :: x :: xs
      else x :: insertRankedEntry e xs

/-- Pad a token sequence with the end id up to the final sequence length
(`invokeInitializeOutput` prefills the final ids with end ids). -/
def padTokens (len : Nat) (endId : Int) (ts : List Int) : List Int :=
  ts.take len ++ List.replicate (len - ts.length) endId

/-- Modelled from the spec: `invokeFinalize` ranks the candidate-beam-array
entries (the finished ones plus the just-inserted live ones) by normalized
score with ties broken by lower index and emits the token sequences of the
top beamWidth of them, padded with the end id. -/
def finalizeSlot (beamWidth maxSeqLen : Nat) (endId : Int)
    (s : SlotDecodeState) : List (List Int) :=
  let cands := s.cba.take (s.numBeamsCba + beamWidth)
  let ranked := cands.enum.foldr insertRankedEntry []
  (ranked.take beamWidth).map (fun e => padTokens maxSeqLen endId e.2.tokens)

/-- One gatherTree call on one slot: insert the unfinished paths (mutating
the candidate-beam-array buffers), then finalize. -/
def gatherTreeSlot (beamWidth maxSeqLen : Nat) (endId : Int)
    (s : SlotDecodeState) : SlotDecodeState × List (List Int) :=
  let s1 := insertUnfinishedPath beamWidth s
  (s1, finalizeSlot beamWidth maxSeqLen endId s1)

/-- One gatherTree call on the batch: the decoding-output state after the
call and the emitted finalOutputIds. -/
def gatherTreeRun (beamWidth maxSeqLen : Nat) (endId : Int)
    (slots : List SlotDecodeState) :
    List SlotDecodeState × List (List (List Int)) :=
  (slots.map (fun s => (gatherTreeSlot beamWidth maxSeqLen endId s).1),
   slots.map (fun s => (gatherTreeSlot beamWidth maxSeqLen endId s).2))

/-! ## BlockManager: paged KV-cache block accounting

Modelled from the spec: the BlockManager implementation is not under the
sources (only its class declaration in kvCacheManager.h).  Blocks are
identified by their index into the all-blocks table and carry a residency
flag telling which memory pool currently backs them (onboarding and
offloading swap pool offsets, so residency is dynamic).  Per the spec,
allocation pops the front of the primary free queue and, when that queue
is empty, onboards the front of the secondary free queue, offloading a
referenced primary block to the vacated secondary slot; allocation fails
with OUT_OF_CACHE only when both tiers are exhausted.  Releasing
decrements the reference count and re-enqueues a block whose count reaches
zero into the free queue of the pool that currently backs it, and a block
sits in some free queue iff its reference count is zero.  The prefix tree
is empty throughout (the modelled operations never store blocks for
reuse), so the tree-leaf detach of the eviction policy has no candidates
and every reusable block is already in a free queue. -/

/-- The BlockManager state: pool sizes, the all-blocks reference-count
table, the two free queues, the pool-residency flag of every block (true =
currently backed by the primary pool) and the per-sequence allocated-block
lists (one occurrence per beam attachment, as in mAllocatedBlocksPerSeq). -/
structure BMState where
  numPrimary : Nat
  numSecondary : Nat
  refCount : List Nat
  freePrimary : List Nat
  freeSecondary : List Nat
  residency : List Bool
  seqs : List (List Nat)
  deriving DecidableEq

/-- Reference count of block b. -/
def refAt (s : BMState) (b : Nat) : Nat := s.refCount.getD b 0

/-- getNumFreeBlocks(): the size of the primary free queue
(mFreePrimaryBlocks.size()). -/
def getNumFreeBlocks (s : BMState) : Nat := s.freePrimary.length

/-- getMaxNumBlocks(): the size of the all-blocks table
(mAllBlocksByIdx.size(), primary plus secondary pools). -/
def getMaxNumBlocks (s : BMState) : Nat := s.refCount.length

/-- A freshly constructed manager: every block has reference count zero,
the primary blocks fill the primary free queue, the secondary blocks the
secondary free queue, and no sequence is active. -/
def freshBM (p q : Nat) : BMState where
  numPrimary := p
  numSecondary := q
  refCount := List.replicate (p + q) 0
  freePrimary := List.range p
  freeSecondary := (List.range q).map (fun i => p + i)
  residency := List.replicate p true ++ List.replicate q false
  seqs := []

/-- Index of the first block currently backed by the primary pool (the
offload victim chosen when a secondary block must be onboarded). -/
def firstTrueIdx : List Bool → Option Nat
  | [] => none
  | true :: _ => some 0
  | false :: rest => (firstTrueIdx rest).map (fun i => i + 1)

/-- getFreeBlock(): pop the front of the primary free queue when it is
nonempty.  Otherwise (spec eviction step 3) onboard the front of the
secondary free queue: the claimed block becomes primary-resident and a
primary-resident block is offloaded to the vacated secondary slot (the two
blocks swap pool offsets); since the primary free queue is empty, every
primary-resident block is referenced, so the victim stays allocated and
only its residency changes.  Fails with OUT_OF_CACHE only when both free
queues are empty — or when the primary pool has no slot at all
(numPrimary = 0), a manager that can never serve an allocation. -/
def getFreeBlock (s : BMState) : Option (Nat × BMState) :=
  match s.freePrimary with
  | b :: rest => some (b, { s with freePrimary := rest })
  | [] =>
    match s.freeSecondary with
    | [] => none
    | b :: rest =>
      match firstTrueIdx s.residency with
      | none => none
      | some victim =>
          some (b, { s with
            freeSecondary := rest
            residency := (s.residency.set victim false).set b true })

/-- allocateBlock for one sequence: claim a free block (onboarding it if it
was secondary-resident) and attach it `copies` times to the sequence's
block list (one attachment per beam when the block is shared among beams),
its reference count becoming the number of attachments. -/
def allocateBlockFor (seqIdx copies : Nat) (s : BMState) : Option BMState :=
  if seqIdx < s.seqs.length then
    (getFreeBlock s).map (fun br =>
      { br.2 with
        refCount := br.2.refCount.set br.1 copies
        seqs := br.2.seqs.set seqIdx
          (br.2.seqs.getD seqIdx [] ++ List.replicate copies br.1) })
  else none

/-- releaseBlock: decrement the reference count of one attachment; a block
reaching count zero is appended at the back of the free queue of the pool
that currently backs it. -/
def releaseOne (s : BMState) (b : Nat) : BMState :=
  let r := refAt s b
  let rc := s.refCount.set b (r - 1)
  if r = 1 then
    if s.residency.getD b true then
      { s with refCount := rc, freePrimary := s.freePrimary ++ [b] }
    else
      { s with refCount := rc, freeSecondary := s.freeSecondary ++ [b] }
  else { s with refCount := rc }

def releaseList (l : List Nat) (s : BMState) : BMState :=
  l.foldl releaseOne s

/-- releaseBlocks(seq): release every attachment of the sequence's blocks
and clear its block list. -/
def releaseBlocksFor (seqIdx : Nat) (s : BMState) : Option BMState :=
  if seqIdx < s.seqs.length then
    some (releaseList (s.seqs.getD seqIdx [])
      { s with seqs := s.seqs.set seqIdx [] })
  else none

/-- Allocate n fresh blocks for beam 0 of a sequence, one at a time. -/
def allocSeqBlocks (seqIdx : Nat) : Nat → BMState → Option BMState
  | 0, s => some s
  | n + 1, s => (allocateBlockFor seqIdx 1 s).bind (allocSeqBlocks seqIdx n)

/-- addSequence: register a fresh sequence and allocate its prompt blocks. -/
def addSequenceOp (numBlocks : Nat) (s : BMState) : Option BMState :=
  allocSeqBlocks s.seqs.length numBlocks { s with seqs := s.seqs ++ [[]] }

/-- The BlockManager operations quantified over by the claim.  `allocBlock`
attaches the claimed block copies+1 times (copies+1 beams sharing it). -/
inductive BMOp
  | addSeq (numBlocks : Nat)
  | allocBlock (seqIdx : Nat) (copies : Nat)
  | releaseSeq (seqIdx : Nat)
  deriving DecidableEq

def applyBMOp (s : BMState) : BMOp → Option BMState
  | .addSeq n => addSequenceOp n s
  | .allocBlock i c => allocateBlockFor i (c + 1) s
  | .releaseSeq i => releaseBlocksFor i s

def runBMOps : List BMOp → BMState → Option BMState
  | [], s => some s
  | op :: ops, s => (applyBMOp s op).bind (runBMOps ops)

/-- Occurrences of block b across all sequences' block lists. -/
def occTotal (s : BMState) (b : Nat) : Nat :=
  (s.seqs.map (fun l => l.count b)).sum

/-- The free-queue and reference-count invariant of the BlockManager: the
table and the residency flags cover both pools, exactly numPrimary blocks
are primary-resident, the reference count of a block is its number of
attachments across sequences, the two free queues together hold exactly
the blocks of reference count zero, and each queue holds blocks of the
pool that currently backs them. -/
structure BMInv (s : BMState) : Prop where
  lenRef : s.refCount.length = s.numPrimary + s.numSecondary
  lenRes : s.residency.length = s.numPrimary + s.numSecondary
  resCount : s.residency.count true = s.numPrimary
  refOcc : ∀ b, refAt s b = occTotal s b
  freePerm : List.Perm (s.freePrimary ++ s.freeSecondary)
    ((List.range (s.numPrimary + s.numSecondary)).filter
      (fun b => refAt s b == 0))
  freePrimRes : ∀ b ∈ s.freePrimary, s.residency.getD b true = true
  freeSecRes : ∀ b ∈ s.freeSecondary, s.residency.getD b true = false

/-- The C2 claim as stated: over an initially fresh manager, after any
operation run at whose end every sequence's block list is empty, the size
of the primary free queue equals the size of the all-blocks table. -/
def blockManagerClaim : Prop :=
  ∀ (p q : Nat) (ops : List BMOp) (sfin : BMState),
    runBMOps ops (freshBM p q) = some sfin →
    (∀ l ∈ sfin.seqs, l = []) →
    getNumFreeBlocks sfin = getMaxNumBlocks sfin

theorem countP_id_le_length (row : List Bool) :
    row.countP (fun b => b) ≤ row.length :=
  List.countP_le_length _

theorem countP_id_eq_length_iff (row : List Bool) :
    row.countP (fun b => b) = row.length ↔ ∀ b ∈ row, b = true := by
  induction row with
  | nil => simp
  | cons x xs ih =>
    cases x <;> simp [List.countP_cons, ih]
    exact fun h => absurd (List.countP_le_length (l := xs) (p := fun b => b))
      (by omega)

theorem sum_counts_le_sum_lengths (rows : List (List Bool)) :
    (finishedSumHost rows).sum ≤ (rows.map List.length).sum := by
  induction rows with
  | nil => simp [finishedSumHost]
  | cons r rs ih =>
    simp only [finishedSumHost, List.map_cons, List.sum_cons] at *
    exact Nat.add_le_add (countP_id_le_length r) ih

theorem sum_counts_eq_sum_lengths_iff (rows : List (List Bool)) :
    (rows.map List.length).sum = (finishedSumHost rows).sum ↔
      ∀ row ∈ rows, ∀ b ∈ row, b = true := by
  induction rows with
  | nil => simp [finishedSumHost]
  | cons r rs ih =>
    have h1 : r.countP (fun b => b) ≤ r.length := countP_id_le_length r
    have h2 := sum_counts_le_sum_lengths rs
    simp only [finishedSumHost, List.map_cons, List.sum_cons, List.mem_cons] at *
    constructor
    · intro h
      have hr : r.length = r.countP (fun b => b) := by omega
      have hrs : (rs.map List.length).sum = (finishedSumHost rs).sum := by
        simp only [finishedSumHost]; omega
      intro row hrow
      rcases hrow with rfl | hrow
      · exact (countP_id_eq_length_iff row).mp hr.symm
      · exact (ih.mp hrs) row hrow
    · intro h
      have hr : r.countP (fun b => b) = r.length :=
        (countP_id_eq_length_iff r).mpr (h r (Or.inl rfl))
      have hrs : (rs.map List.length).sum = (finishedSumHost rs).sum :=
        ih.mpr (fun row hrow => h row (Or.inr hrow))
      simp only [finishedSumHost] at hrs ⊢
      omega

/-- C1: the synchronous `GptDecoder::forward` returns `true` iff every entry
of the finished mask is terminal.  When `sequenceLimitLength` and the
`finished` mask are both provided the returned boolean equals the predicate
that the number of finished entries equals the total size of the finished
mask, and that predicate holds iff every slot entry is finished; when either
input is absent, `forward` returns the definite boolean `false` without
reading the finished state. -/
theorem gptDecoderForward_allDone_characterization :
    (∀ rows : List (List Bool),
        (((gptDecoderForward true (some rows)).allDone = true) ↔
          (finishedSumHost rows).sum = (rows.map List.length).sum)
        ∧ (((gptDecoderForward true (some rows)).allDone = true) ↔
            ∀ row ∈ rows, ∀ b ∈ row, b = true))
    ∧ (∀ f, (gptDecoderForward false f).allDone = false)
    ∧ (∀ s, (gptDecoderForward s none).allDone = false) := by
  refine ⟨fun rows => ⟨?_, ?_⟩, fun f => ?_, fun s => ?_⟩
  · simp only [gptDecoderForward, beq_iff_eq]
    exact ⟨fun h => h.symm, fun h => h.symm⟩
  · simp only [gptDecoderForward, beq_iff_eq]
    exact sum_counts_eq_sum_lengths_iff rows
  · cases f <;> rfl
  · cases s <;> rfl

theorem gptDecoderForward_allDone_characterization_witness :
    (gptDecoderForward true (some [[true], [true, true]])).allDone = true :=
  ((gptDecoderForward_allDone_characterization.1 [[true], [true, true]]).2).mpr
    (by decide)

/-- C6: the synchronous `forward` issues a stream synchronization exactly
when both `sequenceLimitLength` and the `finished` output are provided (the
case in which `finishedSum` must be read to compute the returned boolean),
and `forwardAsync` never issues a stream synchronization. -/
theorem gptDecoderForward_sync_characterization :
    (∀ (s : Bool) (f : Option (List (List Bool))),
        HostAction.streamSynchronize ∈ (gptDecoderForward s f).actions ↔
          (s = true ∧ f.isSome = true))
    ∧ HostAction.streamSynchronize ∉ gptDecoderForwardAsync := by
  constructor
  · intro s f
    cases s <;> cases f <;> simp [gptDecoderForward]
  · simp [gptDecoderForwardAsync]

theorem gptDecoderForward_sync_characterization_witness :
    HostAction.streamSynchronize ∈ (gptDecoderForward true (some [[false]])).actions :=
  (gptDecoderForward_sync_characterization.1 true (some [[false]])).mpr
    (by decide)

/-- C4: both speculative-decoding acceptance operations require beam width 1.
For `acceptDraftTokensByIds` the beam width is read from the target tensor
shape: any input with beam dimension different from 1 fails with the
invalid-argument beam-width check before any device work, and any input with
beam dimension 1 passes that check.  For `acceptDraftTokensByLogits` the beam
width is a constexpr 1, so its beam-width check never fails (no input carries
a beam dimension that could differ from 1). -/
theorem acceptDraftTokens_beamWidth_requirement :
    (∀ s : AcceptByIdsShapes, s.targetDim1 ≠ 1 →
        acceptDraftTokensByIdsValidate s =
          Except.error AcceptCheckFailure.beamWidthCheck)
    ∧ (∀ s : AcceptByIdsShapes, s.targetDim1 = 1 →
        acceptDraftTokensByIdsValidate s ≠
          Except.error AcceptCheckFailure.beamWidthCheck)
    ∧ (∀ (v d : Nat) (dt : LogitsDtype),
        acceptDraftTokensByLogitsValidate v d dt ≠
          Except.error AcceptCheckFailure.beamWidthCheck) := by
  refine ⟨fun s h => ?_, fun s h => ?_, fun v d dt => ?_⟩
  · simp [acceptDraftTokensByIdsValidate, h]
  · simp only [acceptDraftTokensByIdsValidate, h]
    split_ifs <;> simp_all
  · cases dt <;>
      simp only [acceptDraftTokensByLogitsValidate, acceptByLogitsBeamWidth] <;>
      split_ifs <;> simp_all

theorem acceptDraftTokens_beamWidth_requirement_witness :
    acceptDraftTokensByIdsValidate ⟨8, 4, 2, 10, 8, 3, 8, 8, 8⟩ =
        Except.error AcceptCheckFailure.beamWidthCheck
    ∧ acceptDraftTokensByIdsValidate ⟨8, 4, 1, 10, 8, 3, 8, 8, 8⟩ ≠
        Except.error AcceptCheckFailure.beamWidthCheck :=
  ⟨acceptDraftTokens_beamWidth_requirement.1 _ (by decide),
   acceptDraftTokens_beamWidth_requirement.2.1 _ (by decide)⟩

theorem acceptScan_le_iff (draft target : List Int) (k : Nat) :
    k ≤ acceptScan draft target ↔
      (k ≤ draft.length ∧ k ≤ target.length ∧ draft.take k = target.take k) := by
  induction draft generalizing target k with
  | nil =>
    simp only [acceptScan, List.length_nil, List.take_nil]
    constructor
    · intro h
      interval_cases k
      simp
    · intro h
      exact h.1
  | cons x ds ih =>
    cases target with
    | nil =>
      simp only [acceptScan, List.take_nil]
      constructor
      · intro h
        interval_cases k
        simp
      · intro h
        exact h.2.1
    | cons y ts =>
      simp only [acceptScan]
      by_cases hxy : x = y
      · subst hxy
        rw [if_pos rfl]
        cases k with
        | zero => simp
        | succ k =>
          simp only [List.length_cons, List.take_succ_cons, List.cons.injEq,
            true_and, Nat.add_le_add_iff_right]
          exact ih ts k
      · simp only [if_neg hxy, Nat.le_zero]
        cases k with
        | zero => simp
        | succ k =>
          simp only [List.take_succ_cons, List.cons.injEq]
          constructor
          · intro h
            exact absurd h (by omega)
          · intro h
            exact absurd h.2.2.1 hxy

/-- C3: `acceptDraftTokensByIds` accepts exactly the longest common prefix of
the draft and target tokens (the accepted count is the largest k below both
lengths at which the two take-prefixes coincide), emits the target token at
the first mismatch position as the extra token, and increments the slot entry
of `sequenceLengths` by the accepted count plus one; on the spec scenario
draft [3,4,5] against target [3,4,9] it accepts 2, emits 9 and adds 3. -/
theorem acceptDraftTokensByIds_semantics :
    (∀ (draft target : List Int) (seqLen k : Nat),
        (k ≤ (acceptDraftTokensByIdsSlot draft target seqLen).1 ↔
          (k ≤ draft.length ∧ k ≤ target.length ∧ draft.take k = target.take k))
        ∧ (acceptDraftTokensByIdsSlot draft target seqLen).2.1 =
            target.get? (acceptDraftTokensByIdsSlot draft target seqLen).1
        ∧ (acceptDraftTokensByIdsSlot draft target seqLen).2.2 =
            seqLen + (acceptDraftTokensByIdsSlot draft target seqLen).1 + 1)
    ∧ acceptDraftTokensByIdsSlot [3, 4, 5] [3, 4, 9] 7 = (2, some 9, 10) := by
  refine ⟨fun draft target seqLen k => ⟨?_, rfl, rfl⟩, by decide⟩
  exact acceptScan_le_iff draft target k

theorem acceptDraftTokensByIds_semantics_witness :
    2 ≤ (acceptDraftTokensByIdsSlot [3, 4, 5] [3, 4, 9] 7).1 :=
  ((acceptDraftTokensByIds_semantics.1 [3, 4, 5] [3, 4, 9] 7 2).1).mpr (by decide)

/-- C10: `gatherTree` validates its preconditions before any device work: it
reaches the kernels iff the final beam width is strictly greater than 1, the
decoder batch size equals the final batch size, the decoder beam width equals
the final beam width and the decoder sequence length is at most the final max
sequence length; it fails with one of the four checks otherwise. -/
theorem gatherTreeValidate_ok_iff (s : GatherTreeShapes) :
    gatherTreeValidate s = Except.ok () ↔
      (1 < s.finalBeam ∧ s.decBatch = s.finalBatch ∧ s.decBeam = s.finalBeam ∧
        s.decSeqLen ≤ s.finalMaxSeqLen) := by
  unfold gatherTreeValidate
  split_ifs <;> simp_all

theorem gatherTreeValidate_ok_iff_witness :
    gatherTreeValidate ⟨2, 4, 10, 2, 4, 10⟩ = Except.ok () :=
  (gatherTreeValidate_ok_iff ⟨2, 4, 10, 2, 4, 10⟩).mpr (by decide)

theorem runPenaltyOps_flag_any (f : PenaltyUseFlags → Bool)
    (g : PenaltyOp → Bool)
    (hstep : ∀ s op, f (applyPenaltyOp s op).flags = (f s.flags || g op)) :
    ∀ (ops : List PenaltyOp) (s : PenaltyLayerState),
      f (runPenaltyOps ops s).flags = (f s.flags || ops.any g) := by
  intro ops
  induction ops with
  | nil => intro s; simp [runPenaltyOps]
  | cons op rest ih =>
    intro s
    have h1 : runPenaltyOps (op :: rest) s =
        runPenaltyOps rest (applyPenaltyOp s op) := rfl
    rw [h1, ih, hstep, List.any_cons, Bool.or_assoc]

/-- C5 (counterexample): the claim as stated is false.  A setup call that
provides a temperature vector holding only the default value 1 under a mode
that uses temperature sets the temperature use flag, although it installs no
non-default value for any slot; the flag is triggered by has_value, not by
non-defaultness. -/
theorem penaltyLazyEnable_claim_false : ¬ penaltyLazyEnableClaim := by
  intro h
  have h1 := h 1
    [PenaltyOp.setupOp ⟨true, true, true, true, true⟩
      ⟨some [1], none, none, none, none⟩]
  have h2 : ¬ ∃ op ∈
      [PenaltyOp.setupOp (DecodingModeUses.mk true true true true true)
        (PenaltySetupParams.mk (some [1]) none none none none)],
      installsNonDefaultTemperature op = true := by decide
  exact h2 (h1.mp (by decide))

/-- C5 (amended): each per-class use flag after any sequence of setup and
forwardAsync calls equals its previous value OR-ed with whether some setup
call in the sequence provided values for that class under a mode using it,
whether or not those values differ from the defaults.  In particular the
flags are monotone: no operation (setup or forwardAsync) ever clears a set
flag, so once a class is enabled it stays enabled for the layer lifetime. -/
theorem penaltyFlags_provided_characterization (ops : List PenaltyOp)
    (s : PenaltyLayerState) :
    ((runPenaltyOps ops s).flags.useTemperature
        = (s.flags.useTemperature || ops.any providesTemperature))
    ∧ ((runPenaltyOps ops s).flags.useRepetitionPenalty
        = (s.flags.useRepetitionPenalty || ops.any providesRepetitionPenalty))
    ∧ ((runPenaltyOps ops s).flags.usePresencePenalty
        = (s.flags.usePresencePenalty || ops.any providesPresencePenalty))
    ∧ ((runPenaltyOps ops s).flags.useFrequencyPenalty
        = (s.flags.useFrequencyPenalty || ops.any providesFrequencyPenalty))
    ∧ ((runPenaltyOps ops s).flags.useMinLength
        = (s.flags.useMinLength || ops.any providesMinLength)) := by
  refine ⟨?_, ?_, ?_, ?_, ?_⟩ <;>
    apply runPenaltyOps_flag_any <;>
    intro t op <;>
    cases op <;>
    simp [applyPenaltyOp, penaltySetupFlags, penaltyForwardStep,
      providesTemperature, providesRepetitionPenalty, providesPresencePenalty,
      providesFrequencyPenalty, providesMinLength]

theorem penaltyFlags_provided_characterization_witness :
    (runPenaltyOps
        [PenaltyOp.setupOp ⟨true, false, false, false, false⟩
          ⟨some [1], none, none, none, none⟩, PenaltyOp.forwardOp]
        (penaltyLayerInit 4)).flags.useTemperature = true :=
  (penaltyFlags_provided_characterization
      [PenaltyOp.setupOp ⟨true, false, false, false, false⟩
        ⟨some [1], none, none, none, none⟩, PenaltyOp.forwardOp]
      (penaltyLayerInit 4)).1.trans (by decide)

theorem getD_set_ne {α : Type} (l : List α) (i j : Nat) (x d : α)
    (h : j ≠ i) : (l.set i x).getD j d = l.getD j d := by
  induction l generalizing i j with
  | nil => simp
  | cons a as ih =>
    cases i with
    | zero =>
      cases j with
      | zero => exact absurd rfl h
      | succ j => simp [List.getD_cons_succ]
    | succ i =>
      cases j with
      | zero => simp [List.getD_cons_zero]
      | succ j =>
        simp only [List.set_cons_succ, List.getD_cons_succ]
        exact ih i j (fun hc => h (by rw [hc]))

/-- C9: the penalty layer forward never writes the caller-provided input
logits: the penalized logits go to the dedicated runtime-logits device
buffer, every other buffer (in particular each input logits buffer, whether
passed as one tensor or as a logitsVec) holds the same values as before, and
the inputs logits pointer is redirected to the dedicated buffer. -/
theorem penaltyForwardAsync_frame (runtimeBuf : Nat) (inputBufs : List Nat)
    (temp : ℚ) (mem : DeviceMem) (b : Nat) (h : b ≠ runtimeBuf) :
    readBuf (penaltyForwardAsyncMem runtimeBuf inputBufs temp mem).2 b
        = readBuf mem b
    ∧ (penaltyForwardAsyncMem runtimeBuf inputBufs temp mem).1 = runtimeBuf := by
  constructor
  · exact getD_set_ne mem runtimeBuf b _ [] h
  · rfl

theorem penaltyForwardAsync_frame_witness :
    readBuf (penaltyForwardAsyncMem 2 [0, 1] 2 [[4, 6], [8], []]).2 0
      = readBuf [[4, 6], [8], []] 0 :=
  (penaltyForwardAsync_frame 2 [0, 1] 2 [[4, 6], [8], []] 0 (by decide)).1

theorem decodeStepSlot_obs_congr (cfg : SamplingCfg) (slot : Nat)
    (row : List Int) (s1 s2 : DecoderRunState)
    (h1 : s1.rngStates = s2.rngStates) (h2 : s1.cumLogProbs = s2.cumLogProbs) :
    (decodeStepSlot cfg slot row s1).2 = (decodeStepSlot cfg slot row s2).2
    ∧ (decodeStepSlot cfg slot row s1).1.rngStates
        = (decodeStepSlot cfg slot row s2).1.rngStates
    ∧ (decodeStepSlot cfg slot row s1).1.cumLogProbs
        = (decodeStepSlot cfg slot row s2).1.cumLogProbs := by
  simp [decodeStepSlot, h1, h2]

theorem decodeStepBatch_obs_congr (cfg : SamplingCfg) :
    ∀ (bs : List Nat) (rows : List (List Int)) (s1 s2 : DecoderRunState),
      s1.rngStates = s2.rngStates → s1.cumLogProbs = s2.cumLogProbs →
      (decodeStepBatch cfg bs rows s1).2 = (decodeStepBatch cfg bs rows s2).2
      ∧ (decodeStepBatch cfg bs rows s1).1.rngStates
          = (decodeStepBatch cfg bs rows s2).1.rngStates
      ∧ (decodeStepBatch cfg bs rows s1).1.cumLogProbs
          = (decodeStepBatch cfg bs rows s2).1.cumLogProbs := by
  intro bs
  induction bs with
  | nil => intro rows s1 s2 h1 h2; exact ⟨rfl, h1, h2⟩
  | cons slot bs ih =>
    intro rows s1 s2 h1 h2
    cases rows with
    | nil => exact ⟨rfl, h1, h2⟩
    | cons row rs =>
      have hs := decodeStepSlot_obs_congr cfg slot row s1 s2 h1 h2
      have hb := ih rs (decodeStepSlot cfg slot row s1).1
        (decodeStepSlot cfg slot row s2).1 hs.2.1 hs.2.2
      simp only [decodeStepBatch]
      exact ⟨by rw [hs.1, hb.1], hb.2.1, hb.2.2⟩

theorem runDecode_obs_congr (cfg : SamplingCfg) (batchSlots : List Nat) :
    ∀ (steps : List (List (List Int))) (s1 s2 : DecoderRunState),
      s1.rngStates = s2.rngStates → s1.cumLogProbs = s2.cumLogProbs →
      (runDecode cfg batchSlots steps s1).2 = (runDecode cfg batchSlots steps s2).2
      ∧ (runDecode cfg batchSlots steps s1).1.rngStates
          = (runDecode cfg batchSlots steps s2).1.rngStates
      ∧ (runDecode cfg batchSlots steps s1).1.cumLogProbs
          = (runDecode cfg batchSlots steps s2).1.cumLogProbs := by
  intro steps
  induction steps with
  | nil => intro s1 s2 h1 h2; exact ⟨rfl, h1, h2⟩
  | cons rows rest ih =>
    intro s1 s2 h1 h2
    have hb := decodeStepBatch_obs_congr cfg batchSlots rows s1 s2 h1 h2
    have hr := ih (decodeStepBatch cfg batchSlots rows s1).1
      (decodeStepBatch cfg batchSlots rows s2).1 hb.2.1 hb.2.2
    simp only [runDecode]
    exact ⟨by rw [hb.1, hr.1], hr.2.1, hr.2.2⟩

/-- C7: decoding is deterministic: two runs of the decode step sequence with
identical random seeds, logits, batchSlots and sampling configuration but
arbitrary (possibly different) initial device workspace contents produce
identical output ids and identical cumulative log probabilities. -/
theorem decode_determinism (cfg : SamplingCfg) (seeds : List Nat)
    (maxBatch : Nat) (batchSlots : List Nat) (steps : List (List (List Int)))
    (scratch1 scratch2 : List Int) :
    (runDecode cfg batchSlots steps (initDecoderState seeds maxBatch scratch1)).2
      = (runDecode cfg batchSlots steps (initDecoderState seeds maxBatch scratch2)).2
    ∧ (runDecode cfg batchSlots steps
          (initDecoderState seeds maxBatch scratch1)).1.cumLogProbs
      = (runDecode cfg batchSlots steps
          (initDecoderState seeds maxBatch scratch2)).1.cumLogProbs := by
  have h := runDecode_obs_congr cfg batchSlots steps
    (initDecoderState seeds maxBatch scratch1)
    (initDecoderState seeds maxBatch scratch2) rfl rfl
  exact ⟨h.1, h.2.2⟩

theorem getD_set_self {α : Type} (l : List α) (i : Nat) (x d : α)
    (h : i < l.length) : (l.set i x).getD i d = x := by
  induction l generalizing i with
  | nil => simp at h
  | cons a as ih =>
    cases i with
    | zero => rfl
    | succ i =>
      simp only [List.set_cons_succ, List.getD_cons_succ]
      exact ih i (by simpa using h)

theorem getD_len_le {α : Type} (l : List α) (i : Nat) (d : α)
    (h : l.length ≤ i) : l.getD i d = d := by
  induction l generalizing i with
  | nil => cases i <;> rfl
  | cons a as ih =>
    cases i with
    | zero => simp at h
    | succ i =>
      simp only [List.getD_cons_succ]
      exact ih i (by simpa using h)

theorem refAt_ne_zero_lt (s : BMState) (b : Nat) (h : refAt s b ≠ 0) :
    b < s.refCount.length := by
  by_contra hc
  exact h (getD_len_le s.refCount b 0 (by omega))

theorem sum_map_set_getD (f : List Nat → Nat) :
    ∀ (l : List (List Nat)) (i : Nat) (x : List Nat), i < l.length →
      ((l.set i x).map f).sum + f (l.getD i []) = (l.map f).sum + f x := by
  intro l
  induction l with
  | nil => intro i x h; simp at h
  | cons a as ih =>
    intro i x h
    cases i with
    | zero =>
      simp only [List.set_cons_zero, List.map_cons, List.sum_cons,
        List.getD_cons_zero]
      omega
    | succ i =>
      simp only [List.set_cons_succ, List.map_cons, List.sum_cons,
        List.getD_cons_succ]
      have := ih i x (by simpa using h)
      omega

theorem filter_flip_perm (p q : Nat → Bool) (b : Nat) :
    ∀ l : List Nat, l.Nodup → b ∈ l → q b = true → p b = false →
      (∀ x, x ≠ b → p x = q x) →
      List.Perm (l.filter q) (b :: l.filter p) := by
  intro l
  induction l with
  | nil => intro _ h; simp at h
  | cons x xs ih =>
    intro hnd hmem hq hp hagree
    rcases List.mem_cons.mp hmem with rfl | hmem
    · have hxs : ∀ y ∈ xs, p y = q y := by
        intro y hy
        have hyb : y ≠ b := fun hc => (List.nodup_cons.mp hnd).1 (hc ▸ hy)
        exact hagree y hyb
      rw [List.filter_cons, List.filter_cons, hq, hp, if_pos rfl,
        if_neg Bool.false_ne_true, List.filter_congr hxs]
    · have hxb : x ≠ b := fun hc =>
        (List.nodup_cons.mp hnd).1 (hc ▸ hmem)
      have hrec := ih (List.nodup_cons.mp hnd).2 hmem hq hp hagree
      rw [List.filter_cons, List.filter_cons, hagree x hxb]
      cases hqx : q x with
      | false =>
        rw [if_neg Bool.false_ne_true, if_neg Bool.false_ne_true]
        exact hrec
      | true =>
        rw [if_pos rfl, if_pos rfl]
        exact (hrec.cons x).trans (List.Perm.swap b x _)

theorem getD_irrel {α : Type} (l : List α) (i : Nat) (d1 d2 : α)
    (h : i < l.length) : l.getD i d1 = l.getD i d2 := by
  induction l generalizing i with
  | nil => simp at h
  | cons a as ih =>
    cases i with
    | zero => rfl
    | succ i =>
      simp only [List.getD_cons_succ]
      exact ih i (by simpa using h)

theorem getD_append_lt {α : Type} (l1 l2 : List α) (i : Nat) (d : α)
    (h : i < l1.length) : (l1 ++ l2).getD i d = l1.getD i d := by
  induction l1 generalizing i with
  | nil => simp at h
  | cons a as ih =>
    cases i with
    | zero => rfl
    | succ i =>
      simp only [List.cons_append, List.getD_cons_succ]
      exact ih i (by simpa using h)

theorem getD_append_ge {α : Type} (l1 l2 : List α) (i : Nat) (d : α)
    (h : l1.length ≤ i) : (l1 ++ l2).getD i d = l2.getD (i - l1.length) d := by
  induction l1 generalizing i with
  | nil => simp
  | cons a as ih =>
    cases i with
    | zero => simp at h
    | succ i =>
      simp only [List.cons_append, List.getD_cons_succ, List.length_cons,
        Nat.succ_sub_succ]
      exact ih i (by simpa using h)

theorem getD_replicate_lt {α : Type} :
    ∀ (n i : Nat) (a d : α), i < n → (List.replicate n a).getD i d = a := by
  intro n
  induction n with
  | zero => intro i a d h; simp at h
  | succ n ih =>
    intro i a d h
    cases i with
    | zero => rfl
    | succ i => exact ih i a d (by omega)

theorem count_true_set_true :
    ∀ (l : List Bool) (i : Nat), i < l.length → l.getD i false = false →
      (l.set i true).count true = l.count true + 1 := by
  intro l
  induction l with
  | nil => intro i h; simp at h
  | cons a as ih =>
    intro i hlen hv
    cases i with
    | zero =>
      have ha : a = false := hv
      subst ha
      simp [List.count_cons]
    | succ i =>
      have hr := ih i (by simpa using hlen) hv
      cases a <;> simp [List.count_cons, hr]

theorem count_true_set_false :
    ∀ (l : List Bool) (i : Nat), i < l.length → l.getD i false = true →
      l.count true = (l.set i false).count true + 1 := by
  intro l
  induction l with
  | nil => intro i h; simp at h
  | cons a as ih =>
    intro i hlen hv
    cases i with
    | zero =>
      have ha : a = true := hv
      subst ha
      simp [List.count_cons]
    | succ i =>
      have hr := ih i (by simpa using hlen) hv
      cases a <;> simp [List.count_cons, hr]

theorem firstTrueIdx_facts :
    ∀ (l : List Bool) (v : Nat), firstTrueIdx l = some v →
      v < l.length ∧ l.getD v false = true := by
  intro l
  induction l with
  | nil => intro v h; simp [firstTrueIdx] at h
  | cons x xs ih =>
    intro v h
    cases x with
    | true =>
      simp only [firstTrueIdx, Option.some.injEq] at h
      subst h
      exact ⟨by simp, rfl⟩
    | false =>
      simp only [firstTrueIdx] at h
      cases hw : firstTrueIdx xs with
      | none =>
        rw [hw] at h
        simp at h
      | some w =>
        rw [hw] at h
        simp only [Option.map_some', Option.some.injEq] at h
        subst h
        obtain ⟨h1, h2⟩ := ih w hw
        constructor
        · simpa using Nat.succ_lt_succ h1
        · simpa [List.getD_cons_succ] using h2

theorem all_true_of_count_eq_length :
    ∀ l : List Bool, l.count true = l.length → ∀ x ∈ l, x = true := by
  intro l
  induction l with
  | nil => intro _ x hx; simp at hx
  | cons a as ih =>
    intro h x hx
    have hle : as.count true ≤ as.length := List.count_le_length true as
    cases a with
    | false =>
      rw [List.count_cons] at h
      simp only [List.length_cons] at h
      exact absurd h (by simp; omega)
    | true =>
      rw [List.count_cons] at h
      simp only [List.length_cons] at h
      have has : as.count true = as.length := by simp at h; omega
      rcases List.mem_cons.mp hx with rfl | hx
      · rfl
      · exact ih has x hx

theorem getD_mem_of_lt {α : Type} (l : List α) (i : Nat) (d : α)
    (h : i < l.length) : l.getD i d ∈ l := by
  induction l generalizing i with
  | nil => simp at h
  | cons a as ih =>
    cases i with
    | zero => exact List.mem_cons_self a as
    | succ i =>
      simp only [List.getD_cons_succ]
      exact List.mem_cons_of_mem a (ih i (by simpa using h))

theorem count_replicate_ne {α : Type} [BEq α] [LawfulBEq α] (x b : α)
    (n : Nat) (h : x ≠ b) : (List.replicate n b).count x = 0 := by
  rw [List.count_eq_zero]
  intro hmem
  exact h (List.eq_of_mem_replicate hmem)

theorem getD_replicate_self {α : Type} :
    ∀ (n i : Nat) (a : α), (List.replicate n a).getD i a = a := by
  intro n
  induction n with
  | zero => intro i a; cases i <;> rfl
  | succ n ih =>
    intro i a
    cases i with
    | zero => rfl
    | succ i => exact ih i a

theorem releaseOne_facts (s : BMState) (b k : Nat)
    (h1 : s.refCount.length = s.numPrimary + s.numSecondary)
    (hr : refAt s b = k + 1)
    (h3 : List.Perm (s.freePrimary ++ s.freeSecondary)
      ((List.range (s.numPrimary + s.numSecondary)).filter
        (fun x => refAt s x == 0)))
    (h4 : ∀ x ∈ s.freePrimary, s.residency.getD x true = true)
    (h5 : ∀ x ∈ s.freeSecondary, s.residency.getD x true = false) :
    (releaseOne s b).numPrimary = s.numPrimary
    ∧ (releaseOne s b).numSecondary = s.numSecondary
    ∧ (releaseOne s b).seqs = s.seqs
    ∧ (releaseOne s b).residency = s.residency
    ∧ (releaseOne s b).refCount.length = s.refCount.length
    ∧ refAt (releaseOne s b) b = k
    ∧ (∀ x, x ≠ b → refAt (releaseOne s b) x = refAt s x)
    ∧ List.Perm ((releaseOne s b).freePrimary ++ (releaseOne s b).freeSecondary)
        ((List.range (s.numPrimary + s.numSecondary)).filter
          (fun x => refAt (releaseOne s b) x == 0))
    ∧ (∀ x ∈ (releaseOne s b).freePrimary, s.residency.getD x true = true)
    ∧ (∀ x ∈ (releaseOne s b).freeSecondary,
        s.residency.getD x true = false) := by
  have hblen : b < s.refCount.length := refAt_ne_zero_lt s b (by omega)
  have hblt : b < s.numPrimary + s.numSecondary := by omega
  simp only [releaseOne, hr]
  split_ifs with hc1 hc2
  · -- the count reaches zero and the block is primary-resident
    have hk : k = 0 := by omega
    refine ⟨rfl, rfl, rfl, rfl, by simp, ?_, ?_, ?_, ?_, h5⟩
    · show (s.refCount.set b (k + 1 - 1)).getD b 0 = k
      rw [getD_set_self s.refCount b (k + 1 - 1) 0 hblen]
      omega
    · intro x hx
      exact getD_set_ne s.refCount b x (k + 1 - 1) 0 hx
    · have hflip : List.Perm
          ((List.range (s.numPrimary + s.numSecondary)).filter
            (fun x => (s.refCount.set b (k + 1 - 1)).getD x 0 == 0))
          (b :: (List.range (s.numPrimary + s.numSecondary)).filter
            (fun x => refAt s x == 0)) := by
        apply filter_flip_perm _ _ b _ (List.nodup_range _)
          (List.mem_range.mpr hblt)
        · rw [getD_set_self s.refCount b (k + 1 - 1) 0 hblen]
          subst hk
          rfl
        · rw [hr]
          rfl
        · intro x hx
          rw [getD_set_ne s.refCount b x (k + 1 - 1) 0 hx]
          rfl
      have h0 : (s.freePrimary ++ [b]) ++ s.freeSecondary
          = s.freePrimary ++ (b :: s.freeSecondary) := by
        rw [List.append_assoc]
        rfl
      show List.Perm ((s.freePrimary ++ [b]) ++ s.freeSecondary) _
      rw [h0]
      exact (List.perm_middle.trans (h3.cons b)).trans hflip.symm
    · intro x hx
      rcases List.mem_append.mp hx with hx1 | hx2
      · exact h4 x hx1
      · rw [List.mem_singleton.mp hx2]
        exact hc2
  · -- the count reaches zero and the block is secondary-resident
    have hk : k = 0 := by omega
    have hc2f : s.residency.getD b true = false := by
      simpa using hc2
    refine ⟨rfl, rfl, rfl, rfl, by simp, ?_, ?_, ?_, h4, ?_⟩
    · show (s.refCount.set b (k + 1 - 1)).getD b 0 = k
      rw [getD_set_self s.refCount b (k + 1 - 1) 0 hblen]
      omega
    · intro x hx
      exact getD_set_ne s.refCount b x (k + 1 - 1) 0 hx
    · have hflip : List.Perm
          ((List.range (s.numPrimary + s.numSecondary)).filter
            (fun x => (s.refCount.set b (k + 1 - 1)).getD x 0 == 0))
          (b :: (List.range (s.numPrimary + s.numSecondary)).filter
            (fun x => refAt s x == 0)) := by
        apply filter_flip_perm _ _ b _ (List.nodup_range _)
          (List.mem_range.mpr hblt)
        · rw [getD_set_self s.refCount b (k + 1 - 1) 0 hblen]
          subst hk
          rfl
        · rw [hr]
          rfl
        · intro x hx
          rw [getD_set_ne s.refCount b x (k + 1 - 1) 0 hx]
          rfl
      have h0 : s.freePrimary ++ (s.freeSecondary ++ [b])
          = (s.freePrimary ++ s.freeSecondary) ++ [b] :=
        (List.append_assoc _ _ _).symm
      show List.Perm (s.freePrimary ++ (s.freeSecondary ++ [b])) _
      rw [h0]
      exact ((List.perm_append_singleton b _).trans (h3.cons b)).trans hflip.symm
    · intro x hx
      rcases List.mem_append.mp hx with hx1 | hx2
      · exact h5 x hx1
      · rw [List.mem_singleton.mp hx2]
        exact hc2f
  · -- the count stays positive: only the table entry changes
    refine ⟨rfl, rfl, rfl, rfl, by simp, ?_, ?_, ?_, h4, h5⟩
    · show (s.refCount.set b (k + 1 - 1)).getD b 0 = k
      rw [getD_set_self s.refCount b (k + 1 - 1) 0 hblen]
      omega
    · intro x hx
      exact getD_set_ne s.refCount b x (k + 1 - 1) 0 hx
    · have hfeq : ∀ x ∈ List.range (s.numPrimary + s.numSecondary),
          ((s.refCount.set b (k + 1 - 1)).getD x 0 == 0) = (refAt s x == 0) := by
        intro x hx
        by_cases hxb : x = b
        · subst hxb
          rw [getD_set_self s.refCount x (k + 1 - 1) 0 hblen, hr]
          have hv1 : (k + 1 - 1 == 0) = false := by
            rw [beq_eq_false_iff_ne]
            omega
          have hv2 : (k + 1 == 0) = false := by
            rw [beq_eq_false_iff_ne]
            omega
          rw [hv1, hv2]
        · rw [getD_set_ne s.refCount b x (k + 1 - 1) 0 hxb]
          rfl
      exact h3.trans (List.Perm.of_eq (List.filter_congr hfeq).symm)

theorem getFreeBlock_facts (s : BMState) (b : Nat) (s1 : BMState)
    (hinv : BMInv s) (h : getFreeBlock s = some (b, s1)) :
    s1.numPrimary = s.numPrimary
    ∧ s1.numSecondary = s.numSecondary
    ∧ s1.refCount = s.refCount
    ∧ s1.seqs = s.seqs
    ∧ refAt s b = 0
    ∧ b < s.numPrimary + s.numSecondary
    ∧ List.Perm (b :: (s1.freePrimary ++ s1.freeSecondary))
        ((List.range (s.numPrimary + s.numSecondary)).filter
          (fun x => refAt s x == 0))
    ∧ s1.residency.length = s.residency.length
    ∧ s1.residency.count true = s.residency.count true
    ∧ (∀ x ∈ s1.freePrimary, s1.residency.getD x true = true)
    ∧ (∀ x ∈ s1.freeSecondary, s1.residency.getD x true = false) := by
  cases hfp : s.freePrimary with
  | cons c rest =>
    simp only [getFreeBlock, hfp, Option.some.injEq, Prod.mk.injEq] at h
    obtain ⟨rfl, rfl⟩ := h
    have hbmem : c ∈ s.freePrimary ++ s.freeSecondary := by
      rw [hfp]
      exact List.mem_append_left _ (List.mem_cons_self _ _)
    have hmf := List.mem_filter.mp (hinv.freePerm.mem_iff.mp hbmem)
    refine ⟨rfl, rfl, rfl, rfl, by simpa using hmf.2, List.mem_range.mp hmf.1,
      ?_, rfl, rfl, ?_, hinv.freeSecRes⟩
    · have hp := hinv.freePerm
      rw [hfp] at hp
      exact hp
    · intro x hx
      exact hinv.freePrimRes x (by rw [hfp]; exact List.mem_cons_of_mem _ hx)
  | nil =>
    cases hfs : s.freeSecondary with
    | nil =>
      simp [getFreeBlock, hfp, hfs] at h
    | cons c rest =>
      cases hft : firstTrueIdx s.residency with
      | none =>
        simp [getFreeBlock, hfp, hfs, hft] at h
      | some victim =>
        simp only [getFreeBlock, hfp, hfs, hft, Option.some.injEq,
          Prod.mk.injEq] at h
        obtain ⟨rfl, rfl⟩ := h
        obtain ⟨hvlt, hvtrue⟩ := firstTrueIdx_facts s.residency victim hft
        have hbmem : c ∈ s.freePrimary ++ s.freeSecondary := by
          rw [hfp, hfs]
          exact List.mem_append_right _ (List.mem_cons_self _ _)
        have hmf := List.mem_filter.mp (hinv.freePerm.mem_iff.mp hbmem)
        have hblt : c < s.numPrimary + s.numSecondary := List.mem_range.mp hmf.1
        have hblen : c < s.residency.length := by
          rw [hinv.lenRes]
          exact hblt
        have hbres : s.residency.getD c true = false :=
          hinv.freeSecRes c (by rw [hfs]; exact List.mem_cons_self _ _)
        have hbv : c ≠ victim := by
          intro hcv
          rw [hcv, getD_irrel s.residency victim true false hvlt, hvtrue] at hbres
          simp at hbres
        have hnd : (s.freePrimary ++ s.freeSecondary).Nodup :=
          (hinv.freePerm.nodup_iff).mpr
            (List.Nodup.filter _ (List.nodup_range _))
        have hbrest : c ∉ rest := by
          rw [hfp, hfs] at hnd
          simp only [List.nil_append, List.nodup_cons] at hnd
          exact hnd.1
        refine ⟨rfl, rfl, rfl, rfl, by simpa using hmf.2, hblt, ?_, ?_, ?_,
          ?_, ?_⟩
        · have hp := hinv.freePerm
          rw [hfp, hfs] at hp
          exact hp
        · simp
        · have hbres0 : (s.residency.set victim false).getD c false = false := by
            rw [getD_set_ne s.residency victim c false false hbv,
              getD_irrel s.residency c false true hblen]
            exact hbres
          have hstep1 : s.residency.count true
              = (s.residency.set victim false).count true + 1 :=
            count_true_set_false s.residency victim hvlt hvtrue
          have hstep2 : ((s.residency.set victim false).set c true).count true
              = (s.residency.set victim false).count true + 1 :=
            count_true_set_true (s.residency.set victim false) c
              (by simpa using hblen) hbres0
          show ((s.residency.set victim false).set c true).count true
              = s.residency.count true
          omega
        · intro x hx
          exact absurd hx (by simp)
        · intro x hx
          have hxmem : x ∈ s.freeSecondary := by
            rw [hfs]
            exact List.mem_cons_of_mem _ hx
          have hxs : s.residency.getD x true = false := hinv.freeSecRes x hxmem
          have hxb : x ≠ c := fun hcv => hbrest (hcv ▸ hx)
          have hxv : x ≠ victim := by
            intro hcv
            rw [hcv, getD_irrel s.residency victim true false hvlt, hvtrue] at hxs
            simp at hxs
          show ((s.residency.set victim false).set c true).getD x true = false
          rw [getD_set_ne (s.residency.set victim false) c x true true hxb,
            getD_set_ne s.residency victim x false true hxv]
          exact hxs

theorem allocateBlockFor_inv (seqIdx copies : Nat) (s s1 : BMState)
    (hc : 0 < copies) (hinv : BMInv s)
    (h : allocateBlockFor seqIdx copies s = some s1) :
    BMInv s1 ∧ s1.numPrimary = s.numPrimary ∧ s1.numSecondary = s.numSecondary
      ∧ s1.seqs.length = s.seqs.length := by
  by_cases hsi : seqIdx < s.seqs.length
  case neg =>
    rw [allocateBlockFor, if_neg hsi] at h
    exact absurd h (by simp)
  rw [allocateBlockFor, if_pos hsi] at h
  cases hgf : getFreeBlock s with
  | none =>
    rw [hgf] at h
    exact absurd h (by simp)
  | some br =>
    obtain ⟨b, smid⟩ := br
    rw [hgf] at h
    simp only [Option.map_some', Option.some.injEq] at h
    subst h
    obtain ⟨g1, g2, g3, g4, gb0, gblt, gperm, gres1, gres2, gfp, gfs⟩ :=
      getFreeBlock_facts s b smid hinv hgf
    have hblen : b < smid.refCount.length := by
      rw [g3, hinv.lenRef]
      exact gblt
    have hocc0 : occTotal s b = 0 := (hinv.refOcc b).symm.trans gb0
    have hcnt0 : (s.seqs.getD seqIdx []).count b = 0 := by
      have hmem := getD_mem_of_lt s.seqs seqIdx [] hsi
      have hsum := List.sum_eq_zero_iff.mp hocc0
      exact hsum _ (List.mem_map_of_mem _ hmem)
    refine ⟨⟨?_, ?_, ?_, ?_, ?_, gfp, gfs⟩, g1, g2, by simp [g4]⟩
    · show (smid.refCount.set b copies).length = smid.numPrimary + smid.numSecondary
      rw [List.length_set, g3, g1, g2]
      exact hinv.lenRef
    · show smid.residency.length = smid.numPrimary + smid.numSecondary
      rw [gres1, g1, g2]
      exact hinv.lenRes
    · show smid.residency.count true = smid.numPrimary
      rw [gres2, g1]
      exact hinv.resCount
    · intro x
      by_cases hxb : x = b
      · subst hxb
        show (smid.refCount.set x copies).getD x 0 = _
        rw [getD_set_self smid.refCount x copies 0 hblen]
        have hkey := sum_map_set_getD (fun l => l.count x) smid.seqs seqIdx
          (smid.seqs.getD seqIdx [] ++ List.replicate copies x)
          (by rw [g4]; exact hsi)
        have hnew : (smid.seqs.getD seqIdx [] ++ List.replicate copies x).count x
            = copies := by
          rw [g4, List.count_append, hcnt0, List.count_replicate_self]
          omega
        show copies = occTotal _ x
        rw [g4] at hkey hnew
        simp only [occTotal, g4] at hocc0 hkey ⊢
        omega
      · show (smid.refCount.set b copies).getD x 0 = _
        rw [getD_set_ne smid.refCount b x copies 0 hxb, g3]
        have hkey := sum_map_set_getD (fun l => l.count x) smid.seqs seqIdx
          (smid.seqs.getD seqIdx [] ++ List.replicate copies b)
          (by rw [g4]; exact hsi)
        have hnew : (smid.seqs.getD seqIdx [] ++ List.replicate copies b).count x
            = (s.seqs.getD seqIdx []).count x := by
          rw [g4, List.count_append, count_replicate_ne x b copies hxb]
          omega
        have hold := hinv.refOcc x
        show refAt s x = occTotal _ x
        rw [g4] at hkey hnew
        simp only [occTotal, g4] at hold hkey ⊢
        omega
    · have hflip := filter_flip_perm
        (fun x => ((smid.refCount.set b copies).getD x 0 == 0))
        (fun x => refAt s x == 0) b
        (List.range (s.numPrimary + s.numSecondary))
        (List.nodup_range _) (List.mem_range.mpr gblt)
        (by simpa using gb0)
        (by
          show ((smid.refCount.set b copies).getD b 0 == 0) = false
          rw [getD_set_self smid.refCount b copies 0 hblen, beq_eq_false_iff_ne]
          omega)
        (by
          intro x hx
          show ((smid.refCount.set b copies).getD x 0 == 0) = (refAt s x == 0)
          rw [getD_set_ne smid.refCount b x copies 0 hx, g3]
          rfl)
      show List.Perm (smid.freePrimary ++ smid.freeSecondary) _
      have hgoal := (gperm.trans hflip).cons_inv
      rw [g1, g2]
      exact hgoal

theorem releaseList_inv :
    ∀ (l : List Nat) (s : BMState) (g : Nat → Nat),
      s.refCount.length = s.numPrimary + s.numSecondary →
      (∀ b, refAt s b = l.count b + g b) →
      List.Perm (s.freePrimary ++ s.freeSecondary)
        ((List.range (s.numPrimary + s.numSecondary)).filter
          (fun x => refAt s x == 0)) →
      (∀ x ∈ s.freePrimary, s.residency.getD x true = true) →
      (∀ x ∈ s.freeSecondary, s.residency.getD x true = false) →
      (releaseList l s).numPrimary = s.numPrimary
      ∧ (releaseList l s).numSecondary = s.numSecondary
      ∧ (releaseList l s).seqs = s.seqs
      ∧ (releaseList l s).residency = s.residency
      ∧ (releaseList l s).refCount.length = s.refCount.length
      ∧ (∀ b, refAt (releaseList l s) b = g b)
      ∧ List.Perm
          ((releaseList l s).freePrimary ++ (releaseList l s).freeSecondary)
          ((List.range (s.numPrimary + s.numSecondary)).filter
            (fun x => refAt (releaseList l s) x == 0))
      ∧ (∀ x ∈ (releaseList l s).freePrimary, s.residency.getD x true = true)
      ∧ (∀ x ∈ (releaseList l s).freeSecondary,
          s.residency.getD x true = false) := by
  intro l
  induction l with
  | nil =>
    intro s g h1 h2 h3 h4 h5
    refine ⟨rfl, rfl, rfl, rfl, rfl, ?_, h3, h4, h5⟩
    intro b
    have hc := h2 b
    simpa using hc
  | cons b rest ih =>
    intro s g h1 h2 h3 h4 h5
    have hstep : releaseList (b :: rest) s = releaseList rest (releaseOne s b) :=
      rfl
    have hr : refAt s b = (rest.count b + g b) + 1 := by
      have hc := h2 b
      rw [List.count_cons_self] at hc
      omega
    obtain ⟨e1, e2, e3, e4, e5, e6, e7, e8, e9, e10⟩ :=
      releaseOne_facts s b (rest.count b + g b) h1 hr h3 h4 h5
    have h2m : ∀ x, refAt (releaseOne s b) x = rest.count x + g x := by
      intro x
      by_cases hxb : x = b
      · subst hxb
        exact e6
      · rw [e7 x hxb]
        have hc := h2 x
        rw [List.count_cons_of_ne hxb] at hc
        exact hc
    have h1m : (releaseOne s b).refCount.length =
        (releaseOne s b).numPrimary + (releaseOne s b).numSecondary := by
      rw [e1, e2, e5, h1]
    have h3m : List.Perm
        ((releaseOne s b).freePrimary ++ (releaseOne s b).freeSecondary)
        ((List.range ((releaseOne s b).numPrimary +
            (releaseOne s b).numSecondary)).filter
          (fun x => refAt (releaseOne s b) x == 0)) := by
      rw [e1, e2]
      exact e8
    have h4m : ∀ x ∈ (releaseOne s b).freePrimary,
        (releaseOne s b).residency.getD x true = true := by
      rw [e4]
      exact e9
    have h5m : ∀ x ∈ (releaseOne s b).freeSecondary,
        (releaseOne s b).residency.getD x true = false := by
      rw [e4]
      exact e10
    obtain ⟨f1, f2, f3, f4, f5, f6, f7, f8, f9⟩ :=
      ih (releaseOne s b) g h1m h2m h3m h4m h5m
    rw [e1] at f7
    rw [e2] at f7
    rw [e4] at f8 f9
    rw [hstep]
    exact ⟨f1.trans e1, f2.trans e2, f3.trans e3, f4.trans e4, f5.trans e5,
      f6, f7, f8, f9⟩

theorem releaseBlocksFor_inv (seqIdx : Nat) (s s1 : BMState)
    (hinv : BMInv s) (h : releaseBlocksFor seqIdx s = some s1) :
    BMInv s1 ∧ s1.numPrimary = s.numPrimary ∧ s1.numSecondary = s.numSecondary
      ∧ s1.seqs.length = s.seqs.length := by
  by_cases hsi : seqIdx < s.seqs.length
  case neg =>
    rw [releaseBlocksFor, if_neg hsi] at h
    exact absurd h (by simp)
  rw [releaseBlocksFor, if_pos hsi] at h
  simp only [Option.some.injEq] at h
  subst h
  have hg : ∀ b, refAt { s with seqs := s.seqs.set seqIdx ([] : List Nat) } b
      = (s.seqs.getD seqIdx []).count b
        + occTotal { s with seqs := s.seqs.set seqIdx ([] : List Nat) } b := by
    intro b
    have hkey := sum_map_set_getD (fun li => li.count b) s.seqs seqIdx [] hsi
    have hold := hinv.refOcc b
    simp only [List.count_nil] at hkey
    show refAt s b = _
    simp only [occTotal] at hold hkey ⊢
    omega
  obtain ⟨f1, f2, f3, f4, f5, f6, f7, f8, f9⟩ :=
    releaseList_inv (s.seqs.getD seqIdx [])
      { s with seqs := s.seqs.set seqIdx ([] : List Nat) }
      (fun b => occTotal { s with seqs := s.seqs.set seqIdx ([] : List Nat) } b)
      hinv.lenRef hg hinv.freePerm hinv.freePrimRes hinv.freeSecRes
  refine ⟨⟨?_, ?_, ?_, ?_, ?_, ?_, ?_⟩, f1, f2, ?_⟩
  · rw [f5, f1, f2]
    exact hinv.lenRef
  · rw [f4, f1, f2]
    exact hinv.lenRes
  · rw [f4, f1]
    exact hinv.resCount
  · intro b
    rw [f6 b]
    show occTotal _ b = _
    simp only [occTotal, f3]
  · rw [f1, f2]
    exact f7
  · intro x hx
    rw [f4]
    exact f8 x hx
  · intro x hx
    rw [f4]
    exact f9 x hx
  · rw [f3]
    simp

theorem allocSeqBlocks_inv :
    ∀ (n seqIdx : Nat) (s s1 : BMState), BMInv s →
      allocSeqBlocks seqIdx n s = some s1 →
      BMInv s1 ∧ s1.numPrimary = s.numPrimary ∧ s1.numSecondary = s.numSecondary
        ∧ s1.seqs.length = s.seqs.length := by
  intro n
  induction n with
  | zero =>
    intro seqIdx s s1 hinv h
    simp only [allocSeqBlocks, Option.some.injEq] at h
    subst h
    exact ⟨hinv, rfl, rfl, rfl⟩
  | succ n ih =>
    intro seqIdx s s1 hinv h
    rw [allocSeqBlocks] at h
    cases hmid : allocateBlockFor seqIdx 1 s with
    | none =>
      rw [hmid] at h
      exact absurd h (by simp)
    | some smid =>
      rw [hmid] at h
      have h2 : allocSeqBlocks seqIdx n smid = some s1 := h
      obtain ⟨hinv2, g1, g2, g3⟩ :=
        allocateBlockFor_inv seqIdx 1 s smid (by omega) hinv hmid
      obtain ⟨hinv3, k1, k2, k3⟩ := ih seqIdx smid s1 hinv2 h2
      exact ⟨hinv3, k1.trans g1, k2.trans g2, k3.trans g3⟩

theorem addSequenceOp_inv (n : Nat) (s s1 : BMState) (hinv : BMInv s)
    (h : addSequenceOp n s = some s1) :
    BMInv s1 ∧ s1.numPrimary = s.numPrimary
      ∧ s1.numSecondary = s.numSecondary := by
  rw [addSequenceOp] at h
  have hmidinv : BMInv { s with seqs := s.seqs ++ [([] : List Nat)] } := by
    refine ⟨hinv.lenRef, hinv.lenRes, hinv.resCount, ?_, hinv.freePerm,
      hinv.freePrimRes, hinv.freeSecRes⟩
    intro b
    have hold := hinv.refOcc b
    show refAt s b = _
    simp only [occTotal, List.map_append, List.sum_append, List.map_cons,
      List.count_nil, List.map_nil, List.sum_cons, List.sum_nil] at hold ⊢
    omega
  obtain ⟨hinv2, g1, g2, _⟩ :=
    allocSeqBlocks_inv n s.seqs.length
      { s with seqs := s.seqs ++ [([] : List Nat)] } s1 hmidinv h
  exact ⟨hinv2, g1, g2⟩

theorem applyBMOp_inv (op : BMOp) (s s1 : BMState) (hinv : BMInv s)
    (h : applyBMOp s op = some s1) :
    BMInv s1 ∧ s1.numPrimary = s.numPrimary
      ∧ s1.numSecondary = s.numSecondary := by
  cases op with
  | addSeq n => exact addSequenceOp_inv n s s1 hinv h
  | allocBlock i c =>
    obtain ⟨a, b1, b2, _⟩ :=
      allocateBlockFor_inv i (c + 1) s s1 (by omega) hinv h
    exact ⟨a, b1, b2⟩
  | releaseSeq i =>
    obtain ⟨a, b1, b2, _⟩ := releaseBlocksFor_inv i s s1 hinv h
    exact ⟨a, b1, b2⟩

theorem runBMOps_inv :
    ∀ (ops : List BMOp) (s s1 : BMState), BMInv s →
      runBMOps ops s = some s1 →
      BMInv s1 ∧ s1.numPrimary = s.numPrimary
        ∧ s1.numSecondary = s.numSecondary := by
  intro ops
  induction ops with
  | nil =>
    intro s s1 hinv h
    simp only [runBMOps, Option.some.injEq] at h
    subst h
    exact ⟨hinv, rfl, rfl⟩
  | cons op rest ih =>
    intro s s1 hinv h
    rw [runBMOps] at h
    cases hmid : applyBMOp s op with
    | none =>
      rw [hmid] at h
      exact absurd h (by simp)
    | some smid =>
      rw [hmid] at h
      have h2 : runBMOps rest smid = some s1 := h
      obtain ⟨hinv2, g1, g2⟩ := applyBMOp_inv op s smid hinv hmid
      obtain ⟨hinv3, k1, k2⟩ := ih smid s1 hinv2 h2
      exact ⟨hinv3, k1.trans g1, k2.trans g2⟩

theorem freshBM_inv (p q : Nat) : BMInv (freshBM p q) := by
  have hzero : ∀ b, refAt (freshBM p q) b = 0 := by
    intro b
    show (List.replicate (p + q) 0).getD b 0 = 0
    exact getD_replicate_self (p + q) b 0
  refine ⟨?_, ?_, ?_, ?_, ?_, ?_, ?_⟩
  · show (List.replicate (p + q) (0 : Nat)).length = p + q
    simp
  · show (List.replicate p true ++ List.replicate q false).length = p + q
    simp
  · show (List.replicate p true ++ List.replicate q false).count true = p
    rw [List.count_append, List.count_replicate_self,
      count_replicate_ne true false q (by simp)]
    omega
  · intro b
    rw [hzero b]
    show 0 = occTotal (freshBM p q) b
    simp [occTotal, freshBM]
  · have hall : ∀ x ∈ List.range (p + q),
        (refAt (freshBM p q) x == 0) = true := by
      intro x hx
      simp [hzero x]
    show List.Perm (List.range p ++ (List.range q).map (fun i => p + i))
      ((List.range (p + q)).filter (fun b => refAt (freshBM p q) b == 0))
    rw [List.filter_eq_self.mpr hall, List.range_add]
  · intro b hb
    have hblt : b < p := by simpa using List.mem_range.mp hb
    show (List.replicate p true ++ List.replicate q false).getD b true = true
    rw [getD_append_lt _ _ _ _ (by simpa using hblt)]
    exact getD_replicate_lt p b true true hblt
  · intro b hb
    obtain ⟨i, hi, rfl⟩ := List.mem_map.mp hb
    have hiq : i < q := List.mem_range.mp hi
    show (List.replicate p true ++ List.replicate q false).getD (p + i) true
      = false
    rw [getD_append_ge _ _ _ _ (by simp)]
    have hsub : p + i - (List.replicate p (true : Bool)).length = i := by
      simp
    rw [hsub]
    exact getD_replicate_lt q i false true hiq

/-- C2 (amended): for every finite sequence of addSequence, allocateBlock
and releaseBlocks operations that the allocator completes (allocation
onboards free secondary blocks when the primary queue is empty and fails
only with OUT_OF_CACHE when both tiers are exhausted) over an initially
fresh manager, after the last sequence is removed the primary and secondary
free queues together hold every block of the all-blocks table:
getNumFreeBlocks() plus the secondary free-queue size equals
getMaxNumBlocks(); in particular, when the secondary pool is empty
(blocksInSecondaryPool = 0), getNumFreeBlocks() equals getMaxNumBlocks()
as the claim states. -/
theorem blockManager_conservation (ops : List BMOp) (p q : Nat)
    (sfin : BMState) (hrun : runBMOps ops (freshBM p q) = some sfin)
    (hempty : ∀ l ∈ sfin.seqs, l = []) :
    sfin.freePrimary.length + sfin.freeSecondary.length = getMaxNumBlocks sfin
    ∧ (q = 0 → getNumFreeBlocks sfin = getMaxNumBlocks sfin) := by
  obtain ⟨hinv, hp, hq⟩ :=
    runBMOps_inv ops (freshBM p q) sfin (freshBM_inv p q) hrun
  have hp2 : sfin.numPrimary = p := hp
  have hq2 : sfin.numSecondary = q := hq
  have hzero : ∀ b, refAt sfin b = 0 := by
    intro b
    rw [hinv.refOcc b]
    simp only [occTotal]
    rw [List.sum_eq_zero_iff]
    intro x hx
    obtain ⟨li, hli, rfl⟩ := List.mem_map.mp hx
    rw [hempty li hli]
    rfl
  have hall : ∀ x ∈ List.range (sfin.numPrimary + sfin.numSecondary),
      (refAt sfin x == 0) = true := by
    intro x hx
    simp [hzero x]
  have hperm := hinv.freePerm
  rw [List.filter_eq_self.mpr hall] at hperm
  have hlen := hperm.length_eq
  rw [List.length_append, List.length_range] at hlen
  constructor
  · show _ = sfin.refCount.length
    rw [hinv.lenRef]
    exact hlen
  · intro hq0
    have hresall : ∀ x ∈ sfin.residency, x = true := by
      apply all_true_of_count_eq_length
      rw [hinv.resCount, hinv.lenRes, hq2, hq0]
      omega
    have hsec : sfin.freeSecondary = [] := by
      cases hfs : sfin.freeSecondary with
      | nil => rfl
      | cons x xs =>
        have hx : x ∈ sfin.freeSecondary := by
          rw [hfs]
          exact List.mem_cons_self x xs
        have hres := hinv.freeSecRes x hx
        have hx2 : x ∈ sfin.freePrimary ++ sfin.freeSecondary :=
          List.mem_append_right _ hx
        have hx3 := List.mem_range.mp (hperm.mem_iff.mp hx2)
        have hxlen : x < sfin.residency.length := by
          rw [hinv.lenRes]
          exact hx3
        have htrue := hresall _ (getD_mem_of_lt sfin.residency x true hxlen)
        rw [htrue] at hres
        exact absurd hres (by simp)
    show sfin.freePrimary.length = sfin.refCount.length
    have hsl : sfin.freeSecondary.length = 0 := by
      rw [hsec]
      rfl
    rw [hinv.lenRef]
    omega

theorem set_writeEntriesAt_lt :
    ∀ (es : List BeamEntry) (m : Nat) (cba : List BeamEntry) (n : Nat)
      (e : BeamEntry), n < m →
      (writeEntriesAt m es cba).set n e = writeEntriesAt m es (cba.set n e) := by
  intro es
  induction es with
  | nil => intro m cba n e h; rfl
  | cons f fs ih =>
    intro m cba n e h
    simp only [writeEntriesAt]
    rw [ih (m + 1) _ n e (by omega), List.set_comm _ _ _ (by omega)]

theorem writeEntriesAt_idem :
    ∀ (es : List BeamEntry) (n : Nat) (cba : List BeamEntry),
      writeEntriesAt n es (writeEntriesAt n es cba) = writeEntriesAt n es cba := by
  intro es
  induction es with
  | nil => intro n cba; rfl
  | cons e es ih =>
    intro n cba
    simp only [writeEntriesAt]
    rw [set_writeEntriesAt_lt es (n + 1) (cba.set n e) n e (by omega),
      List.set_set, ih]

theorem insertUnfinishedPath_idem (beamWidth : Nat) (s : SlotDecodeState) :
    insertUnfinishedPath beamWidth (insertUnfinishedPath beamWidth s)
      = insertUnfinishedPath beamWidth s := by
  simp only [insertUnfinishedPath, writeEntriesAt_idem]

/-- C8: gatherTree is idempotent: even though it runs
`invokeInsertUnfinishedPath`, which writes into the candidate-beam-array
buffers of the decoding output, a second gatherTree call on the state left
by the first (with decodingInput and the rest of decodingOutput unchanged)
produces the same finalOutputIds, because the second insertion overwrites
the same candidate slots with the same reconstructed live hypotheses. -/
theorem gatherTree_idempotent (beamWidth maxSeqLen : Nat) (endId : Int)
    (slots : List SlotDecodeState) :
    (gatherTreeRun beamWidth maxSeqLen endId
        (gatherTreeRun beamWidth maxSeqLen endId slots).1).2
      = (gatherTreeRun beamWidth maxSeqLen endId slots).2 := by
  simp only [gatherTreeRun, List.map_map]
  have hfun : ((fun s => (gatherTreeSlot beamWidth maxSeqLen endId s).2) ∘
      (fun s => (gatherTreeSlot beamWidth maxSeqLen endId s).1))
      = fun s : SlotDecodeState =>
          (gatherTreeSlot beamWidth maxSeqLen endId s).2 := by
    funext s
    simp only [Function.comp, gatherTreeSlot]
    rw [insertUnfinishedPath_idem]
  rw [hfun]

theorem gatherTree_idempotent_witness :
    (gatherTreeRun 2 4 7 (gatherTreeRun 2 4 7
        [⟨[[1, 2], [3, 4]], [[0, 1], [1, 0]], 2, [1, 2],
          [⟨[9], 5⟩, ⟨[], 0⟩, ⟨[], 0⟩, ⟨[], 0⟩], 1⟩]).1).2
      = (gatherTreeRun 2 4 7
          [⟨[[1, 2], [3, 4]], [[0, 1], [1, 0]], 2, [1, 2],
            [⟨[9], 5⟩, ⟨[], 0⟩, ⟨[], 0⟩, ⟨[], 0⟩], 1⟩]).2 :=
  gatherTree_idempotent 2 4 7
    [⟨[[1, 2], [3, 4]], [[0, 1], [1, 0]], 2, [1, 2],
      [⟨[9], 5⟩, ⟨[], 0⟩, ⟨[], 0⟩, ⟨[], 0⟩], 1⟩]

/-- C2 (counterexample): the claim as stated is false when the secondary
pool is nonempty.  On a fresh manager with one primary and one secondary
block, adding one sequence with one block and then removing it leaves the
primary free queue with one entry while the all-blocks table holds two
blocks, so getNumFreeBlocks() differs from getMaxNumBlocks(). -/
theorem blockManagerClaim_false : ¬ blockManagerClaim := by
  intro h
  have h2 := h 1 1 [BMOp.addSeq 1, BMOp.releaseSeq 0]
    (BMState.mk 1 1 [0, 0] [0] [1] [true, false] [[]]) (by decide) (by decide)
  exact absurd h2 (by decide)

theorem blockManager_conservation_witness :
    ((BMState.mk 1 1 [0, 0] [1] [0] [false, true] [[], []]).freePrimary.length
        + (BMState.mk 1 1 [0, 0] [1] [0] [false, true]
            [[], []]).freeSecondary.length
      = getMaxNumBlocks (BMState.mk 1 1 [0, 0] [1] [0] [false, true] [[], []]))
    ∧ ((0 : Nat) = 0 →
        getNumFreeBlocks (BMState.mk 1 0 [0] [0] [] [true] [[]])
          = getMaxNumBlocks (BMState.mk 1 0 [0] [0] [] [true] [[]])) :=
  ⟨(blockManager_conservation
      [BMOp.addSeq 1, BMOp.addSeq 1, BMOp.releaseSeq 0, BMOp.releaseSeq 1] 1 1
      (BMState.mk 1 1 [0, 0] [1] [0] [false, true] [[], []])
      (by decide) (by decide)).1,
   (blockManager_conservation [BMOp.addSeq 1, BMOp.releaseSeq 0] 1 0
      (BMState.mk 1 0 [0] [0] [] [true] [[]])
      (by decide) (by decide)).2⟩

theorem decode_determinism_witness :
    (runDecode ⟨2⟩ [0, 1] [[[5, 1, 7], [2, 2, 2]]]
        (initDecoderState [11, 12] 2 [3, 3, 3])).2
      = (runDecode ⟨2⟩ [0, 1] [[[5, 1, 7], [2, 2, 2]]]
          (initDecoderState [11, 12] 2 [9])).2 :=
  (decode_determinism ⟨2⟩ [11, 12] 2 [0, 1] [[[5, 1, 7], [2, 2, 2]]]
    [3, 3, 3] [9]).1

end TRTLLM
